import Mathlib

/-!
Verification of the Mapper graph-construction pipeline of giotto-tda,
as described by the repository's specification.  The repository's own
files only invoke the pipeline (`make_mapper_pipeline`, `fit_transform`),
so the pipeline itself is modelled from the specification: filter
application, interval cover with overlap, per-pullback-set clustering,
and graph assembly via an inverted index.

Numeric filter values are modelled by rationals (`ℚ`), points by an
arbitrary type `P`, the pluggable filter by a function `P → List ℚ`
(one rational per axis) and the pluggable clusterer by a function
`List P → List (Option ℕ)` returning one local label per input point,
`none` being the noise label.
-/

namespace Mapper

/-- Modelled from the spec: a closed interval of filter values; one member
of the cover of one axis (spec 4.2: bins expanded outward by
`overlap_frac × bin_width / 2` on each side). -/
structure Interval where
  lo : ℚ
  hi : ℚ
deriving DecidableEq, Repr

/-- Membership of a filter value in one cover interval (closed on both sides). -/
def memI (I : Interval) (v : ℚ) : Bool :=
  decide (I.lo ≤ v) && decide (v ≤ I.hi)

/-- Minimum of a list of rationals (0 for the empty list, which the
pipeline only uses when there are no points at all). -/
def listMin : List ℚ → ℚ
  | [] => 0
  | [a] => a
  | a :: b :: rest => min a (listMin (b :: rest))

/-- Maximum of a list of rationals (0 for the empty list). -/
def listMax : List ℚ → ℚ
  | [] => 0
  | [a] => a
  | a :: b :: rest => max a (listMax (b :: rest))

/-- Modelled from the spec (4.2): the bins of one axis.  Compute min/max of
the axis values, divide into `n` equal-width bins, expand each bin by
`ov * width / 2` on each side; if all values are identical (zero-width
range) the cover degenerates to a single bin. -/
def axisBins (vs : List ℚ) (n : ℕ) (ov : ℚ) : List Interval :=
  let mn := listMin vs
  let mx := listMax vs
  if mn = mx then [⟨mn, mx⟩]
  else
    let w := (mx - mn) / (n : ℚ)
    let e := ov * w / 2
    (List.range n).map (fun (i : ℕ) => ⟨mn + (i : ℚ) * w - e, mn + ((i : ℚ) + 1) * w + e⟩)

/-- Enumeration of a list with indices starting at `k`. -/
def enumF (k : ℕ) : List α → List (ℕ × α)
  | [] => []
  | a :: rest => (k, a) :: enumF (k + 1) rest

/-- Modelled from the spec (4.2): Cartesian product of the per-axis bins;
each cell records, per axis, the interval index and the interval. -/
def cellProd : List (List Interval) → List (List (ℕ × Interval))
  | [] => [[]]
  | bs :: rest => (enumF 0 bs).flatMap (fun p => (cellProd rest).map (fun c => p :: c))

/-- Values of one coordinate axis across all filtered rows. -/
def columnVals (fvals : List (List ℚ)) (k : ℕ) : List ℚ :=
  fvals.map (fun r => r.getD k 0)

/-- Dimensionality of the filtered values (length of the first row). -/
def dimOf (fvals : List (List ℚ)) : ℕ :=
  (fvals.headD []).length

/-- Configuration of the Mapper cover (spec 6): number of intervals per
axis and overlap fraction. -/
structure MapperConfig where
  nIntervals : ℕ
  overlapFrac : ℚ
deriving DecidableEq, Repr

/-- Modelled from the spec (6, 7a): a configuration is valid when
`n_intervals` is a positive integer and `overlap_frac` lies in [0, 1). -/
def validConfig (cfg : MapperConfig) : Bool :=
  decide (1 ≤ cfg.nIntervals) && decide (0 ≤ cfg.overlapFrac) && decide (cfg.overlapFrac < 1)

/-- Modelled from the spec (4.1, 7a): the filter output is valid when every
row is a nonempty vector of uniform dimensionality. -/
def validFiltered (fvals : List (List ℚ)) : Bool :=
  fvals.all (fun r => decide (r.length = dimOf fvals) && decide (0 < r.length))

/-- Per-axis bins of the cover for the whole filtered data set. -/
def coverBins (fvals : List (List ℚ)) (cfg : MapperConfig) : List (List Interval) :=
  (List.range (dimOf fvals)).map
    (fun k => axisBins (columnVals fvals k) cfg.nIntervals cfg.overlapFrac)

/-- All cells of the multi-dimensional cover. -/
def coverCells (fvals : List (List ℚ)) (cfg : MapperConfig) : List (List (ℕ × Interval)) :=
  cellProd (coverBins fvals cfg)

/-- Membership of a filtered row in a cell: coordinate-wise interval
membership. -/
def inCell (cell : List (ℕ × Interval)) (row : List ℚ) : Bool :=
  decide (cell.length = row.length) && (cell.zip row).all (fun pr => memI pr.1.2 pr.2)

/-- Point indices whose filtered row falls inside a cell (spec 4.2). -/
def pullbackOf (fvals : List (List ℚ)) (cell : List (ℕ × Interval)) : List ℕ :=
  ((enumF 0 fvals).filter (fun pr => inCell cell pr.2)).map Prod.fst

/-- Modelled from the spec (4.2 output): mapping from pullback-set id (the
tuple of per-axis interval indices) to the point indices it contains;
pullback sets with zero points are omitted. -/
def coverPullbacks (fvals : List (List ℚ)) (cfg : MapperConfig) : List (List ℕ × List ℕ) :=
  (coverCells fvals cfg).filterMap (fun cell =>
    let idxs := pullbackOf fvals cell
    if idxs.isEmpty then none else some (cell.map Prod.fst, idxs))

/-- Original feature vectors of the points of one pullback set (spec 4.3:
the clusterer runs on the original vectors, not the filtered values). -/
def pullbackPoints (pts : List P) (idxs : List ℕ) : List P :=
  idxs.filterMap (fun i => pts.get? i)

/-- Modelled from the spec (4.3): run the clusterer on one pullback set and
pair each point index with its local cluster label (`none` = noise). -/
def pullbackLabeling (clusterer : List P → List (Option ℕ)) (pts : List P)
    (idxs : List ℕ) : List (ℕ × Option ℕ) :=
  idxs.zip (clusterer (pullbackPoints pts idxs))

/-- Clustering step: label every pullback set, keeping the pullback-set id. -/
def clusterStep (clusterer : List P → List (Option ℕ)) (pts : List P)
    (pbs : List (List ℕ × List ℕ)) : List (List ℕ × List (ℕ × Option ℕ)) :=
  pbs.map (fun pb => (pb.1, pullbackLabeling clusterer pts pb.2))

/-- Modelled from the spec (3): a graph node stores its pullback-set label,
its local cluster label, and its owned point indices ("node elements"). -/
structure Node where
  pullbackId : List ℕ
  clusterLabel : ℕ
  elements : List ℕ
deriving DecidableEq, Repr

/-- Modelled from the spec (4.4): one node per non-empty partial cluster of
one pullback set; noise-labeled points belong to no partial cluster. -/
def nodesOfPullback (pbId : List ℕ) (lab : List (ℕ × Option ℕ)) : List Node :=
  ((lab.filterMap Prod.snd).dedup).map (fun l =>
    ⟨pbId, l, (lab.filter (fun pr => pr.2 = some l)).map Prod.fst⟩)

/-- Nodes of the whole graph, in stable order: by pullback set, then by
first appearance of the local label. -/
def buildNodes (res : List (List ℕ × List (ℕ × Option ℕ))) : List Node :=
  res.flatMap (fun r => nodesOfPullback r.1 r.2)

/-- Element list of the node at position `i` ([] out of range). -/
def elemsAt (nodes : List Node) (i : ℕ) : List ℕ :=
  ((nodes.get? i).map Node.elements).getD []

/-- Non-empty intersection test on element lists. -/
def intersects (xs ys : List ℕ) : Bool :=
  xs.any (fun x => ys.contains x)

/-- All ordered pairs (i, j) with i < j < m of node positions. -/
def pairsUnder (m : ℕ) : List (ℕ × ℕ) :=
  (List.range m).flatMap (fun j => (List.range j).map (fun i => (i, j)))

/-- Modelled from the spec (4.4): the naive edge detection — test every
pair of nodes for non-empty intersection of their element sets. -/
def naiveEdges (nodes : List Node) : List (ℕ × ℕ) :=
  (pairsUnder nodes.length).filter (fun pr => intersects (elemsAt nodes pr.1) (elemsAt nodes pr.2))

/-- Modelled from the spec (4.4): the inverted index from point index to
the list of node positions containing it, built in one pass over all
nodes. -/
def invIndex (nodes : List Node) : ℕ → List ℕ :=
  (enumF 0 nodes).foldl
    (fun idx pr => fun p => if pr.2.elements.contains p then idx p ++ [pr.1] else idx p)
    (fun _ => [])

/-- All unordered pairs of entries of a list, by position. -/
def pairsOf : List ℕ → List (ℕ × ℕ)
  | [] => []
  | a :: rest => rest.map (fun b => (a, b)) ++ pairsOf rest

/-- All point indices appearing in some node, deduplicated. -/
def allElements (nodes : List Node) : List ℕ :=
  (nodes.flatMap Node.elements).dedup

/-- Modelled from the spec (4.4): optimized edge detection — enumerate
co-occurring node pairs per point of the inverted index and de-duplicate. -/
def optEdges (nodes : List Node) : List (ℕ × ℕ) :=
  ((allElements nodes).flatMap (fun p => pairsOf (invIndex nodes p))).dedup

/-- Modelled from the spec (3): the output graph — the complete set of
nodes and edges (edges as position pairs (i, j), i < j). -/
structure MapperGraph where
  nodes : List Node
  edges : List (ℕ × ℕ)
deriving DecidableEq, Repr

/-- Graph assembly (spec 4.4): nodes plus edges from the inverted index. -/
def assemble (nodes : List Node) : MapperGraph :=
  ⟨nodes, optEdges nodes⟩

/-- Configuration errors surfaced by the pipeline (spec 7a). -/
inductive MapperError where
  | invalidParams
  | invalidFilterOutput
deriving DecidableEq, Repr

/-- Modelled from the spec (4.5): the pipeline — validate the configuration
and the filter output eagerly, then cover, cluster each pullback set, and
assemble the graph. -/
def transform (cfg : MapperConfig) (filter : P → List ℚ)
    (clusterer : List P → List (Option ℕ)) (pts : List P) :
    Except MapperError MapperGraph :=
  if validConfig cfg = false then .error .invalidParams
  else if validFiltered (pts.map filter) = false then .error .invalidFilterOutput
  else .ok (assemble (buildNodes
    (clusterStep clusterer pts (coverPullbacks (pts.map filter) cfg))))

/-- Collect per-pullback clustering results into the canonical
ordered-by-pullback-id list (spec 9: results are collected into an
ordered-by-pullback-id list before handing to the assembler). -/
def collectOrdered (canonical : List (List ℕ))
    (results : List (List ℕ × List (ℕ × Option ℕ))) : List (List ℕ × List (ℕ × Option ℕ)) :=
  canonical.filterMap (fun id =>
    (results.find? (fun r => decide (r.1 = id))).map (fun r => (id, r.2)))

/-- Modelled from the spec (4.3, 5, 9): the pipeline with an explicit
parallel schedule — the pullback sets are clustered in the order given by
`sched` (a permutation of the cover's pullback list, modelling an
arbitrary parallel completion order) and the results are re-collected in
canonical order before assembly. -/
def transformSched (cfg : MapperConfig) (filter : P → List ℚ)
    (clusterer : List P → List (Option ℕ)) (pts : List P)
    (sched : List (List ℕ × List ℕ)) : Except MapperError MapperGraph :=
  if validConfig cfg = false then .error .invalidParams
  else if validFiltered (pts.map filter) = false then .error .invalidFilterOutput
  else .ok (assemble (buildNodes
    (collectOrdered (((coverPullbacks (pts.map filter) cfg)).map Prod.fst)
      (clusterStep clusterer pts sched))))

/-! Concrete instances used to exercise the pipeline. -/

/-- Identity filter into one axis. -/
def exFilter : ℚ → List ℚ := fun x => [x]

/-- Diagonal filter into two axes. -/
def exFilter2 : ℚ → List ℚ := fun x => [x, x]

/-- Clusterer putting every point of a pullback set into one cluster. -/
def exClusterer : List ℚ → List (Option ℕ) := fun ps => ps.map (fun _ => some 0)

/-- Clusterer labeling every point with value below 1 as noise. -/
def exNoiseCl : List ℚ → List (Option ℕ) :=
  fun ps => ps.map (fun v => if v < 1 then none else some 0)

/-- Graph of `transform ⟨3, 9/10⟩ exFilter exClusterer [0, 1, 2, 3]`. -/
def exGraphChain : MapperGraph :=
  ⟨[⟨[0], 0, [0, 1]⟩, ⟨[1], 0, [1, 2]⟩, ⟨[2], 0, [2, 3]⟩], [(0, 1), (1, 2)]⟩

/-- Graph of `transform ⟨2, 1/2⟩ exFilter2 exClusterer [0, 3/2, 3]`: point 1
belongs to four nodes and all six pairwise edges appear. -/
def exGraphTri : MapperGraph :=
  ⟨[⟨[0, 0], 0, [0, 1]⟩, ⟨[0, 1], 0, [1]⟩, ⟨[1, 0], 0, [1]⟩, ⟨[1, 1], 0, [1, 2]⟩],
    [(0, 1), (0, 2), (0, 3), (1, 2), (1, 3), (2, 3)]⟩

/-- Graph of `transform ⟨3, 9/10⟩ exFilter exNoiseCl [0, 1, 2, 3]`: point 0 is
noise in pullback set [0]. -/
def exGraphNoise : MapperGraph :=
  ⟨[⟨[0], 0, [1]⟩, ⟨[1], 0, [1, 2]⟩, ⟨[2], 0, [2, 3]⟩], [(0, 1), (1, 2)]⟩

/-- Graph of `transform ⟨2, 0⟩ exFilter exClusterer [0, 1, 2, 3]`: a zero-overlap
cover with an exhaustive clusterer partitions the point indices. -/
def exGraphPart : MapperGraph :=
  ⟨[⟨[0], 0, [0, 1]⟩, ⟨[1], 0, [2, 3]⟩], []⟩

/-! Basic lemmas about the helper functions. -/

theorem enumF_getElem? {l : List α} {i : ℕ} {a : α} (k : ℕ) (h : l[i]? = some a) :
    (k + i, a) ∈ enumF k l := by
  induction l generalizing i k with
  | nil => simp at h
  | cons b rest ih =>
    cases i with
    | zero =>
      simp at h
      simp [enumF, h]
    | succ j =>
      simp at h
      have hmem := ih (k + 1) h
      simp [enumF]
      have heq : k + (j + 1) = k + 1 + j := by omega
      rw [heq]
      exact hmem

theorem mem_enumF {l : List α} {k : ℕ} {pr : ℕ × α} (h : pr ∈ enumF k l) :
    k ≤ pr.1 ∧ l[pr.1 - k]? = some pr.2 := by
  induction l generalizing k with
  | nil => simp [enumF] at h
  | cons b rest ih =>
    simp [enumF] at h
    rcases h with h | h
    · subst h; simp
    · obtain ⟨h1, h2⟩ := ih h
      refine ⟨by omega, ?_⟩
      have hd : pr.1 - k = (pr.1 - (k + 1)) + 1 := by omega
      rw [hd]
      simpa using h2

theorem mem_enumF_zero {l : List α} {pr : ℕ × α} (h : pr ∈ enumF 0 l) :
    l[pr.1]? = some pr.2 := by
  simpa using (mem_enumF h).2

theorem enumF_zero_getElem? {l : List α} {i : ℕ} {a : α} (h : l[i]? = some a) :
    (i, a) ∈ enumF 0 l := by
  simpa using enumF_getElem? 0 h

theorem enumF_pairwise (k : ℕ) (l : List α) :
    (enumF k l).Pairwise (fun a b => a.1 < b.1) := by
  induction l generalizing k with
  | nil => simp [enumF]
  | cons b rest ih =>
    simp only [enumF, List.pairwise_cons]
    refine ⟨?_, ih (k + 1)⟩
    intro pr hpr
    exact lt_of_lt_of_le (Nat.lt_succ_self k) (mem_enumF hpr).1

theorem enumF_length (k : ℕ) (l : List α) : (enumF k l).length = l.length := by
  induction l generalizing k with
  | nil => rfl
  | cons b rest ih => simp [enumF, ih]

theorem listMin_le {vs : List ℚ} {v : ℚ} (h : v ∈ vs) : listMin vs ≤ v := by
  induction vs with
  | nil => simp at h
  | cons a rest ih =>
    cases rest with
    | nil => simp at h; simp [listMin, h]
    | cons b rest2 =>
      simp at h
      rcases h with h | h | h
      · simp [listMin, h]
      · exact le_trans (by simp [listMin]) (ih (by simp [h]))
      · exact le_trans (by simp [listMin]) (ih (by simp [h]))

theorem le_listMax {vs : List ℚ} {v : ℚ} (h : v ∈ vs) : v ≤ listMax vs := by
  induction vs with
  | nil => simp at h
  | cons a rest ih =>
    cases rest with
    | nil => simp at h; simp [listMax, h]
    | cons b rest2 =>
      simp at h
      rcases h with h | h | h
      · simp [listMax, h]
      · exact le_trans (ih (by simp [h])) (by simp [listMax])
      · exact le_trans (ih (by simp [h])) (by simp [listMax])

theorem memI_iff {I : Interval} {v : ℚ} : memI I v = true ↔ I.lo ≤ v ∧ v ≤ I.hi := by
  simp [memI]

/-! Surjectivity of the cover: every observed value lies in some bin. -/

theorem axisBins_surj {vs : List ℚ} {v : ℚ} {n : ℕ} {ov : ℚ}
    (hn : 1 ≤ n) (hov : 0 ≤ ov) (hv : v ∈ vs) :
    ∃ pr ∈ enumF 0 (axisBins vs n ov), memI pr.2 v = true := by
  have hmn : listMin vs ≤ v := listMin_le hv
  have hmx : v ≤ listMax vs := le_listMax hv
  by_cases hdeg : listMin vs = listMax vs
  · refine ⟨(0, ⟨listMin vs, listMax vs⟩), ?_, ?_⟩
    · apply enumF_zero_getElem?
      simp [axisBins, hdeg]
    · rw [memI_iff]
      exact ⟨hmn, hmx⟩
  · have hlt : listMin vs < listMax vs := lt_of_le_of_ne (le_trans hmn hmx) hdeg
    have hnq : (0 : ℚ) < (n : ℚ) := by exact_mod_cast Nat.lt_of_lt_of_le Nat.zero_lt_one hn
    set mn := listMin vs with hmn_def
    set mx := listMax vs with hmx_def
    set w : ℚ := (mx - mn) / (n : ℚ) with hw_def
    have hw : 0 < w := div_pos (sub_pos.2 hlt) hnq
    set e : ℚ := ov * w / 2 with he_def
    have he : 0 ≤ e := by positivity
    set q : ℚ := (v - mn) / w with hq_def
    have hq0 : 0 ≤ q := div_nonneg (sub_nonneg.2 hmn) hw.le
    have hqw : q * w = v - mn := div_mul_cancel₀ _ hw.ne'
    set fl : ℕ := ⌊q⌋.toNat with hfl_def
    have hflcast : ((fl : ℕ) : ℚ) = ((⌊q⌋ : ℤ) : ℚ) := by
      exact_mod_cast congrArg (fun z : ℤ => (z : ℚ)) (Int.toNat_of_nonneg (Int.floor_nonneg.2 hq0))
    have hfl_le : (fl : ℚ) ≤ q := by rw [hflcast]; exact Int.floor_le q
    set i : ℕ := min fl (n - 1) with hi_def
    have hi_lt : i < n := by omega
    have hiq : (i : ℚ) ≤ q := le_trans (by exact_mod_cast Nat.cast_le.2 (min_le_left fl (n - 1))) hfl_le
    have hqi : q ≤ (i : ℚ) + 1 := by
      rcases Nat.le_total fl (n - 1) with hc | hc
      · have hie : i = fl := by omega
        have : q < (fl : ℚ) + 1 := by
          rw [hflcast]
          exact Int.lt_floor_add_one q
        rw [hie]
        linarith
      · have hie : i = n - 1 := by omega
        have hqn : q ≤ (n : ℚ) := by
          rw [hq_def, div_le_iff₀ hw]
          have : (n : ℚ) * w = mx - mn := by
            rw [hw_def, mul_div_cancel₀ _ hnq.ne']
          rw [this]
          linarith
        have : ((i : ℕ) : ℚ) + 1 = (n : ℚ) := by
          rw [hie]
          have hcast : ((n - 1 : ℕ) : ℚ) = (n : ℚ) - ((1 : ℕ) : ℚ) := Nat.cast_sub hn
          rw [hcast]
          push_cast
          ring
        rw [this]
        exact hqn
    refine ⟨(i, ⟨mn + (i : ℚ) * w - e, mn + ((i : ℚ) + 1) * w + e⟩), ?_, ?_⟩
    · apply enumF_zero_getElem?
      have hbins : axisBins vs n ov =
          (List.range n).map (fun (j : ℕ) => Interval.mk (mn + (j : ℚ) * w - e) (mn + ((j : ℚ) + 1) * w + e)) := by
        simp only [axisBins, hmn_def, hmx_def, hw_def, he_def]
        rw [if_neg hdeg]
      rw [hbins]
      rw [List.getElem?_map, List.getElem?_range hi_lt]
      rfl
    · rw [memI_iff]
      constructor
      · have : (i : ℚ) * w ≤ v - mn := by
          calc (i : ℚ) * w ≤ q * w := mul_le_mul_of_nonneg_right hiq hw.le
          _ = v - mn := hqw
        simp only []
        linarith
      · have : v - mn ≤ ((i : ℚ) + 1) * w := by
          calc v - mn = q * w := hqw.symm
          _ ≤ ((i : ℚ) + 1) * w := mul_le_mul_of_nonneg_right hqi hw.le
        simp only []
        linarith

theorem cellProd_surj : ∀ (bss : List (List Interval)) (row : List ℚ),
    row.length = bss.length →
    (∀ j (hj : j < bss.length), ∃ pr ∈ enumF 0 (bss.get ⟨j, hj⟩), memI pr.2 (row.getD j 0) = true) →
    ∃ cell ∈ cellProd bss, inCell cell row = true := by
  intro bss
  induction bss with
  | nil =>
    intro row hlen _
    refine ⟨[], by simp [cellProd], ?_⟩
    have : row = [] := List.eq_nil_of_length_eq_zero hlen
    simp [this, inCell]
  | cons bs rest ih =>
    intro row hlen hsurj
    cases row with
    | nil => simp at hlen
    | cons v rvs =>
      obtain ⟨pr, hprmem, hprI⟩ := hsurj 0 (by simp)
      obtain ⟨cell, hcellmem, hcellI⟩ := ih rvs (by simpa using hlen)
        (fun j hj => by
          have := hsurj (j + 1) (by simpa using Nat.succ_lt_succ hj)
          simpa using this)
      refine ⟨pr :: cell, ?_, ?_⟩
      · simp only [cellProd, List.mem_flatMap]
        exact ⟨pr, hprmem, List.mem_map.2 ⟨cell, hcellmem, rfl⟩⟩
      · simp only [inCell, Bool.and_eq_true, decide_eq_true_eq, List.all_eq_true] at hcellI ⊢
        refine ⟨by simp [hcellI.1], ?_⟩
        intro x hx
        simp only [List.zip_cons_cons, List.mem_cons] at hx
        rcases hx with hx | hx
        · subst hx
          simpa using hprI
        · exact hcellI.2 x hx

/-! Cover-level lemmas. -/

theorem validConfig_iff {cfg : MapperConfig} :
    validConfig cfg = true ↔ 1 ≤ cfg.nIntervals ∧ 0 ≤ cfg.overlapFrac ∧ cfg.overlapFrac < 1 := by
  simp [validConfig, and_assoc]

theorem validFiltered_row {fvals : List (List ℚ)} {row : List ℚ}
    (h : validFiltered fvals = true) (hrow : row ∈ fvals) :
    row.length = dimOf fvals ∧ 0 < row.length := by
  simp only [validFiltered, List.all_eq_true, Bool.and_eq_true, decide_eq_true_eq] at h
  exact h row hrow

theorem coverBins_length {fvals : List (List ℚ)} {cfg : MapperConfig} :
    (coverBins fvals cfg).length = dimOf fvals := by
  simp [coverBins]

theorem coverBins_get {fvals : List (List ℚ)} {cfg : MapperConfig} {j : ℕ}
    (hj : j < (coverBins fvals cfg).length) :
    (coverBins fvals cfg).get ⟨j, hj⟩
      = axisBins (columnVals fvals j) cfg.nIntervals cfg.overlapFrac := by
  simp [coverBins]

theorem exists_cell_mem {fvals : List (List ℚ)} {cfg : MapperConfig}
    (hcfg : validConfig cfg = true) (hval : validFiltered fvals = true)
    {row : List ℚ} (hrow : row ∈ fvals) :
    ∃ cell ∈ coverCells fvals cfg, inCell cell row = true := by
  obtain ⟨hn, hov, _⟩ := validConfig_iff.1 hcfg
  have hlen : row.length = dimOf fvals := (validFiltered_row hval hrow).1
  apply cellProd_surj (coverBins fvals cfg) row (by rw [hlen, coverBins_length])
  intro j hj
  rw [coverBins_get hj]
  have hcol : row.getD j 0 ∈ columnVals fvals j :=
    List.mem_map.2 ⟨row, hrow, rfl⟩
  exact axisBins_surj hn hov hcol

theorem mem_pullbackOf {fvals : List (List ℚ)} {cell : List (ℕ × Interval)} {i : ℕ} :
    i ∈ pullbackOf fvals cell ↔ ∃ row, fvals[i]? = some row ∧ inCell cell row = true := by
  simp only [pullbackOf, List.mem_map, List.mem_filter]
  constructor
  · rintro ⟨⟨j, row⟩, ⟨hmem, hin⟩, rfl⟩
    exact ⟨row, mem_enumF_zero hmem, hin⟩
  · rintro ⟨row, hget, hin⟩
    exact ⟨(i, row), ⟨enumF_zero_getElem? hget, hin⟩, rfl⟩

theorem pullbackOf_pairwise {fvals : List (List ℚ)} {cell : List (ℕ × Interval)} :
    (pullbackOf fvals cell).Pairwise (· < ·) := by
  unfold pullbackOf
  rw [List.pairwise_map]
  exact (enumF_pairwise 0 fvals).filter _

theorem pullbackOf_nodup {fvals : List (List ℚ)} {cell : List (ℕ × Interval)} :
    (pullbackOf fvals cell).Nodup :=
  pullbackOf_pairwise.imp Nat.ne_of_lt

theorem mem_coverPullbacks {fvals : List (List ℚ)} {cfg : MapperConfig}
    {pb : List ℕ × List ℕ} :
    pb ∈ coverPullbacks fvals cfg ↔
      ∃ cell ∈ coverCells fvals cfg, pullbackOf fvals cell ≠ [] ∧
        pb = (cell.map Prod.fst, pullbackOf fvals cell) := by
  simp only [coverPullbacks, List.mem_filterMap]
  constructor
  · rintro ⟨cell, hcell, hsome⟩
    by_cases hne : (pullbackOf fvals cell).isEmpty = true
    · simp [hne] at hsome
    · rw [if_neg hne] at hsome
      refine ⟨cell, hcell, ?_, ?_⟩
      · exact List.isEmpty_eq_false.1 (by simpa using hne)
      · exact (Option.some_inj.1 hsome).symm
  · rintro ⟨cell, hcell, hne, rfl⟩
    refine ⟨cell, hcell, ?_⟩
    rw [if_neg (by simp [List.isEmpty_eq_false.2 hne])]

theorem cover_surj {fvals : List (List ℚ)} {cfg : MapperConfig}
    (hcfg : validConfig cfg = true) (hval : validFiltered fvals = true)
    {i : ℕ} {row : List ℚ} (hrow : fvals[i]? = some row) :
    ∃ pb ∈ coverPullbacks fvals cfg, i ∈ pb.2 := by
  obtain ⟨cell, hcell, hin⟩ := exists_cell_mem hcfg hval (List.getElem?_mem hrow)
  have hidx : i ∈ pullbackOf fvals cell := mem_pullbackOf.2 ⟨row, hrow, hin⟩
  refine ⟨(cell.map Prod.fst, pullbackOf fvals cell), ?_, hidx⟩
  exact mem_coverPullbacks.2 ⟨cell, hcell, List.ne_nil_of_mem hidx, rfl⟩

theorem pullback_indices_lt {fvals : List (List ℚ)} {cfg : MapperConfig}
    {pb : List ℕ × List ℕ} (hpb : pb ∈ coverPullbacks fvals cfg)
    {i : ℕ} (hi : i ∈ pb.2) : i < fvals.length := by
  obtain ⟨cell, _, _, rfl⟩ := mem_coverPullbacks.1 hpb
  obtain ⟨row, hget, _⟩ := mem_pullbackOf.1 hi
  exact (List.getElem?_eq_some.1 hget).1

theorem pullback_indices_nodup {fvals : List (List ℚ)} {cfg : MapperConfig}
    {pb : List ℕ × List ℕ} (hpb : pb ∈ coverPullbacks fvals cfg) : pb.2.Nodup := by
  obtain ⟨cell, _, _, rfl⟩ := mem_coverPullbacks.1 hpb
  exact pullbackOf_nodup

/-! Distinctness of pullback-set ids. -/

theorem cellProd_ids_nodup : ∀ (bss : List (List Interval)),
    ((cellProd bss).map (fun c => c.map Prod.fst)).Nodup := by
  intro bss
  induction bss with
  | nil => simp [cellProd]
  | cons bs rest ih =>
    simp only [cellProd, List.map_flatMap, List.map_map]
    rw [List.nodup_flatMap]
    constructor
    · intro p _
      have : (List.map ((fun c => List.map Prod.fst c) ∘ (fun c => p :: c)) (cellProd rest))
          = List.map (fun ids => p.1 :: ids) ((cellProd rest).map (fun c => c.map Prod.fst)) := by
        rw [List.map_map]
        rfl
      rw [this]
      exact ih.map (fun a b h => by injection h)
    · have hpw := enumF_pairwise 0 bs
      refine hpw.imp ?_
      intro a b hab
      intro x hxa hxb
      simp only [Function.comp, List.mem_map] at hxa hxb
      obtain ⟨c1, _, hc1⟩ := hxa
      obtain ⟨c2, _, hc2⟩ := hxb
      rw [← hc1] at hc2
      simp only [List.map_cons] at hc2
      injection hc2 with h1 h2
      omega

theorem filterMap_guard_sublist {f : α → Option β} {g : α → β} (l : List α)
    (h : ∀ a b, f a = some b → b = g a) : (l.filterMap f).Sublist (l.map g) := by
  induction l with
  | nil => simp
  | cons a rest ih =>
    rw [List.filterMap_cons, List.map_cons]
    cases hfa : f a with
    | none => exact ih.cons _
    | some b =>
      rw [h a b hfa]
      exact ih.cons₂ _

theorem coverPullbacks_keys_nodup {fvals : List (List ℚ)} {cfg : MapperConfig} :
    ((coverPullbacks fvals cfg).map Prod.fst).Nodup := by
  have hsub : ((coverPullbacks fvals cfg).map Prod.fst).Sublist
      ((coverCells fvals cfg).map (fun c => c.map Prod.fst)) := by
    unfold coverPullbacks
    rw [List.map_filterMap]
    apply filterMap_guard_sublist
    intro cell b hb
    by_cases hc : (pullbackOf fvals cell).isEmpty = true
    · simp [hc] at hb
    · simp only [if_neg hc, Option.map_some] at hb
      exact (Option.some_inj.1 hb).symm
  exact hsub.nodup (cellProd_ids_nodup _)

/-! Cover with a single cell (n_intervals = 1, or degenerate axes). -/

theorem axisBins_one {vs : List ℚ} {ov : ℚ} : ∃ I, axisBins vs 1 ov = [I] := by
  unfold axisBins
  by_cases h : listMin vs = listMax vs
  · rw [if_pos h]
    exact ⟨_, rfl⟩
  · rw [if_neg h]
    simp
    exact ⟨_, rfl⟩

theorem cellProd_of_singletons : ∀ (bss : List (List Interval)),
    (∀ bs ∈ bss, ∃ I, bs = [I]) → ∃ cell, cellProd bss = [cell] := by
  intro bss
  induction bss with
  | nil => exact fun _ => ⟨[], rfl⟩
  | cons bs rest ih =>
    intro h
    obtain ⟨I, hI⟩ := h bs (by simp)
    obtain ⟨cell, hcell⟩ := ih (fun b hb => h b (by simp [hb]))
    refine ⟨(0, I) :: cell, ?_⟩
    simp [cellProd, hI, hcell, enumF]

theorem coverCells_one {fvals : List (List ℚ)} {cfg : MapperConfig}
    (h1 : cfg.nIntervals = 1) : ∃ cell, coverCells fvals cfg = [cell] := by
  apply cellProd_of_singletons
  intro bs hbs
  simp only [coverBins, List.mem_map] at hbs
  obtain ⟨k, _, hk⟩ := hbs
  rw [← hk, h1]
  exact axisBins_one

/-! Clustering-step and node-construction lemmas. -/

theorem pullbackPoints_length {pts : List P} {idxs : List ℕ}
    (h : ∀ i ∈ idxs, i < pts.length) :
    (pullbackPoints pts idxs).length = idxs.length := by
  induction idxs with
  | nil => rfl
  | cons i rest ih =>
    have hi : i < pts.length := h i (by simp)
    obtain ⟨a, ha⟩ : ∃ a, pts.get? i = some a := by
      rw [List.get?_eq_getElem?]
      exact ⟨pts[i], List.getElem?_eq_getElem hi⟩
    simp only [pullbackPoints, List.filterMap_cons, ha]
    simpa [pullbackPoints] using ih (fun j hj => h j (by simp [hj]))

theorem zip_total {l1 : List α} : ∀ {l2 : List β}, l2.length = l1.length →
    ∀ a ∈ l1, ∃ b, (a, b) ∈ l1.zip l2 := by
  induction l1 with
  | nil => intro l2 _ a ha; simp at ha
  | cons x rest ih =>
    intro l2 hlen a ha
    cases l2 with
    | nil => simp at hlen
    | cons y l2t =>
      rcases List.mem_cons.1 ha with rfl | ha
      · exact ⟨y, by simp⟩
      · obtain ⟨b, hb⟩ := ih (by simpa using hlen) a ha
        exact ⟨b, by simp [hb]⟩

theorem mem_pullbackLabeling {clusterer : List P → List (Option ℕ)} {pts : List P}
    {idxs : List ℕ} {pr : ℕ × Option ℕ}
    (h : pr ∈ pullbackLabeling clusterer pts idxs) : pr.1 ∈ idxs := by
  obtain ⟨a, b⟩ := pr
  exact (List.of_mem_zip h).1

theorem pullbackLabeling_total {clusterer : List P → List (Option ℕ)} {pts : List P}
    {idxs : List ℕ} (hlt : ∀ i ∈ idxs, i < pts.length)
    (hlen : (clusterer (pullbackPoints pts idxs)).length = (pullbackPoints pts idxs).length)
    (hsome : ∀ o ∈ clusterer (pullbackPoints pts idxs), o.isSome = true) :
    ∀ p ∈ idxs, ∃ l, (p, some l) ∈ pullbackLabeling clusterer pts idxs := by
  intro p hp
  have hlen2 : (clusterer (pullbackPoints pts idxs)).length = idxs.length := by
    rw [hlen, pullbackPoints_length hlt]
  obtain ⟨o, ho⟩ := zip_total hlen2 p hp
  have hosome : o.isSome = true := hsome o (List.of_mem_zip ho).2
  obtain ⟨l, hl⟩ := Option.isSome_iff_exists.1 hosome
  exact ⟨l, by rw [← hl]; exact ho⟩

theorem zip_fst_sublist {l1 : List α} : ∀ (l2 : List β),
    (((l1.zip l2).map Prod.fst).Sublist l1) := by
  induction l1 with
  | nil => intro l2; simp
  | cons x rest ih =>
    intro l2
    cases l2 with
    | nil => simp
    | cons y l2t => simpa using (ih l2t).cons₂ x

theorem pullbackLabeling_keys_nodup {clusterer : List P → List (Option ℕ)} {pts : List P}
    {idxs : List ℕ} (h : idxs.Nodup) :
    ((pullbackLabeling clusterer pts idxs).map Prod.fst).Nodup :=
  (zip_fst_sublist _).nodup h

theorem mem_nodesOfPullback {pbId : List ℕ} {lab : List (ℕ × Option ℕ)} {nd : Node} :
    nd ∈ nodesOfPullback pbId lab ↔
      nd.pullbackId = pbId ∧ (∃ pr ∈ lab, pr.2 = some nd.clusterLabel) ∧
        nd.elements = (lab.filter (fun pr => pr.2 = some nd.clusterLabel)).map Prod.fst := by
  simp only [nodesOfPullback, List.mem_map, List.mem_dedup, List.mem_filterMap]
  constructor
  · rintro ⟨l, ⟨pr, hpr, hl⟩, rfl⟩
    exact ⟨rfl, ⟨pr, hpr, hl⟩, rfl⟩
  · rintro ⟨h1, ⟨pr, hpr, hl⟩, h3⟩
    refine ⟨nd.clusterLabel, ⟨pr, hpr, hl⟩, ?_⟩
    cases nd
    simp at h1 h3
    simp [h1, h3]

theorem nodesOfPullback_of_label {pbId : List ℕ} {lab : List (ℕ × Option ℕ)} {p l : ℕ}
    (h : (p, some l) ∈ lab) :
    ∃ nd ∈ nodesOfPullback pbId lab, nd.clusterLabel = l ∧ p ∈ nd.elements := by
  refine ⟨⟨pbId, l, (lab.filter (fun pr => pr.2 = some l)).map Prod.fst⟩, ?_, rfl, ?_⟩
  · exact mem_nodesOfPullback.2 ⟨rfl, ⟨(p, some l), h, rfl⟩, rfl⟩
  · exact List.mem_map.2 ⟨(p, some l), List.mem_filter.2 ⟨h, by simp⟩, rfl⟩

theorem nodesOfPullback_elements {pbId : List ℕ} {lab : List (ℕ × Option ℕ)} {nd : Node}
    (h : nd ∈ nodesOfPullback pbId lab) :
    nd.elements ≠ [] ∧ ∀ p ∈ nd.elements, (p, some nd.clusterLabel) ∈ lab := by
  obtain ⟨h1, ⟨pr, hpr, hl⟩, h3⟩ := mem_nodesOfPullback.1 h
  constructor
  · rw [h3]
    apply List.ne_nil_of_mem
    exact List.mem_map.2 ⟨pr, List.mem_filter.2 ⟨hpr, by simp [hl]⟩, rfl⟩
  · intro p hp
    rw [h3] at hp
    obtain ⟨pr2, hpr2, hfst⟩ := List.mem_map.1 hp
    have := List.mem_filter.1 hpr2
    have hsnd : pr2.2 = some nd.clusterLabel := by simpa using this.2
    have : pr2 = (p, some nd.clusterLabel) := by
      obtain ⟨a, b⟩ := pr2
      simp only at hfst hsnd
      simp [hfst, hsnd]
    rw [← this]
    exact (List.mem_filter.1 hpr2).1

theorem noise_not_in_node {pbId : List ℕ} {lab : List (ℕ × Option ℕ)} {nd : Node} {p : ℕ}
    (hnodup : (lab.map Prod.fst).Nodup) (hnoise : (p, none) ∈ lab)
    (hnd : nd ∈ nodesOfPullback pbId lab) : p ∉ nd.elements := by
  intro hp
  have hsome : (p, some nd.clusterLabel) ∈ lab := (nodesOfPullback_elements hnd).2 p hp
  have := List.inj_on_of_nodup_map hnodup hsome hnoise rfl
  simp at this

theorem mem_buildNodes {res : List (List ℕ × List (ℕ × Option ℕ))} {nd : Node} :
    nd ∈ buildNodes res ↔ ∃ r ∈ res, nd ∈ nodesOfPullback r.1 r.2 :=
  List.mem_flatMap

/-! Edge-detection lemmas: the inverted index and both edge algorithms. -/

theorem foldl_invStep : ∀ (l : List (ℕ × Node)) (idx : ℕ → List ℕ),
    (l.foldl (fun idx pr => fun p =>
        if pr.2.elements.contains p then idx p ++ [pr.1] else idx p) idx)
      = fun p => idx p ++ (l.filter (fun pr => pr.2.elements.contains p)).map Prod.fst := by
  intro l
  induction l with
  | nil =>
    intro idx
    funext p
    simp
  | cons pr rest ih =>
    intro idx
    rw [List.foldl_cons, ih]
    funext p
    by_cases hc : p ∈ pr.2.elements
    · simp [List.filter_cons, hc]
    · simp [List.filter_cons, hc]

theorem invIndex_eq (nodes : List Node) :
    invIndex nodes = fun p =>
      ((enumF 0 nodes).filter (fun pr => pr.2.elements.contains p)).map Prod.fst := by
  unfold invIndex
  rw [foldl_invStep]
  funext p
  simp

theorem mem_invIndex {nodes : List Node} {p i : ℕ} :
    i ∈ invIndex nodes p ↔ i < nodes.length ∧ p ∈ elemsAt nodes i := by
  rw [invIndex_eq]
  simp only [List.mem_map, List.mem_filter]
  constructor
  · rintro ⟨⟨j, nd⟩, ⟨hmem, hcont⟩, rfl⟩
    have hget := mem_enumF_zero hmem
    simp only at hget
    have hlt : j < nodes.length := (List.getElem?_eq_some.1 hget).1
    refine ⟨hlt, ?_⟩
    simp only [elemsAt, List.get?_eq_getElem?, hget]
    simpa using hcont
  · rintro ⟨hlt, hp⟩
    refine ⟨(i, nodes[i]), ⟨enumF_zero_getElem? (List.getElem?_eq_getElem hlt), ?_⟩, rfl⟩
    simp only [elemsAt, List.get?_eq_getElem?, List.getElem?_eq_getElem hlt] at hp
    simpa using hp

theorem invIndex_pairwise (nodes : List Node) (p : ℕ) :
    (invIndex nodes p).Pairwise (· < ·) := by
  rw [invIndex_eq]
  rw [List.pairwise_map]
  exact (enumF_pairwise 0 nodes).filter _

theorem mem_pairsOf_of_pairwise : ∀ {l : List ℕ}, l.Pairwise (· < ·) →
    ∀ {a b : ℕ}, ((a, b) ∈ pairsOf l ↔ a ∈ l ∧ b ∈ l ∧ a < b) := by
  intro l
  induction l with
  | nil => intro _ a b; simp [pairsOf]
  | cons x rest ih =>
    intro hpw a b
    have hx := List.pairwise_cons.1 hpw
    simp only [pairsOf, List.mem_append, List.mem_map, List.mem_cons]
    constructor
    · rintro (⟨c, hc, hcab⟩ | hrec)
      · injection hcab with h1 h2
        subst h1
        subst h2
        exact ⟨Or.inl rfl, Or.inr hc, hx.1 _ hc⟩
      · obtain ⟨ha, hb, hab⟩ := (ih hx.2).1 hrec
        exact ⟨Or.inr ha, Or.inr hb, hab⟩
    · rintro ⟨ha | ha, hb | hb, hab⟩
      · omega
      · subst ha
        exact Or.inl ⟨b, hb, rfl⟩
      · subst hb
        have := hx.1 a ha
        omega
      · exact Or.inr ((ih hx.2).2 ⟨ha, hb, hab⟩)

theorem mem_pairsUnder {m i j : ℕ} : (i, j) ∈ pairsUnder m ↔ i < j ∧ j < m := by
  simp only [pairsUnder, List.mem_flatMap, List.mem_map, List.mem_range]
  constructor
  · rintro ⟨a, ha, b, hb, hba⟩
    injection hba with h1 h2
    omega
  · rintro ⟨hij, hjm⟩
    exact ⟨j, hjm, i, hij, rfl⟩

theorem intersects_iff {xs ys : List ℕ} :
    intersects xs ys = true ↔ ∃ p, p ∈ xs ∧ p ∈ ys := by
  simp [intersects, List.any_eq_true]

theorem mem_naiveEdges {nodes : List Node} {i j : ℕ} :
    (i, j) ∈ naiveEdges nodes ↔
      i < j ∧ j < nodes.length ∧
        intersects (elemsAt nodes i) (elemsAt nodes j) = true := by
  simp only [naiveEdges, List.mem_filter, mem_pairsUnder]
  constructor
  · rintro ⟨⟨h1, h2⟩, h3⟩
    exact ⟨h1, h2, h3⟩
  · rintro ⟨h1, h2, h3⟩
    exact ⟨⟨h1, h2⟩, h3⟩

theorem mem_allElements {nodes : List Node} {i p : ℕ}
    (hi : i < nodes.length) (hp : p ∈ elemsAt nodes i) : p ∈ allElements nodes := by
  simp only [allElements, List.mem_dedup, List.mem_flatMap]
  refine ⟨nodes[i], List.getElem_mem hi, ?_⟩
  simpa [elemsAt, List.get?_eq_getElem?, List.getElem?_eq_getElem hi] using hp

theorem mem_optEdges {nodes : List Node} {e : ℕ × ℕ} :
    e ∈ optEdges nodes ↔ e ∈ naiveEdges nodes := by
  obtain ⟨i, j⟩ := e
  simp only [optEdges, List.mem_dedup, List.mem_flatMap]
  constructor
  · rintro ⟨p, hpall, hpair⟩
    obtain ⟨hi, hj, hij⟩ := (mem_pairsOf_of_pairwise (invIndex_pairwise nodes p)).1 hpair
    obtain ⟨hilt, hip⟩ := mem_invIndex.1 hi
    obtain ⟨hjlt, hjp⟩ := mem_invIndex.1 hj
    exact mem_naiveEdges.2 ⟨hij, hjlt, intersects_iff.2 ⟨p, hip, hjp⟩⟩
  · intro hmem
    obtain ⟨hij, hjlt, hint⟩ := mem_naiveEdges.1 hmem
    obtain ⟨p, hip, hjp⟩ := intersects_iff.1 hint
    have hilt : i < nodes.length := lt_trans hij hjlt
    refine ⟨p, mem_allElements hilt hip, ?_⟩
    exact (mem_pairsOf_of_pairwise (invIndex_pairwise nodes p)).2
      ⟨mem_invIndex.2 ⟨hilt, hip⟩, mem_invIndex.2 ⟨hjlt, hjp⟩, hij⟩

theorem optEdges_nodup (nodes : List Node) : (optEdges nodes).Nodup :=
  List.nodup_dedup _

theorem pairsUnder_nodup (m : ℕ) : (pairsUnder m).Nodup := by
  unfold pairsUnder
  rw [List.nodup_flatMap]
  constructor
  · intro j _
    apply List.Nodup.map
    · intro a b h
      injection h
    · exact List.nodup_range j
  · apply List.Pairwise.imp ?_ (List.pairwise_lt_range m)
    intro a b hab x hxa hxb
    obtain ⟨c, _, hc⟩ := List.mem_map.1 hxa
    obtain ⟨d, _, hd⟩ := List.mem_map.1 hxb
    rw [← hc] at hd
    injection hd with h1 h2
    omega

theorem naiveEdges_nodup (nodes : List Node) : (naiveEdges nodes).Nodup :=
  (List.filter_sublist _).nodup (pairsUnder_nodup nodes.length)

/-! Pipeline-level lemmas. -/

theorem transform_ok {cfg : MapperConfig} {filter : P → List ℚ}
    {clusterer : List P → List (Option ℕ)} {pts : List P}
    (hcfg : validConfig cfg = true) (hval : validFiltered (pts.map filter) = true) :
    transform cfg filter clusterer pts =
      .ok (assemble (buildNodes
        (clusterStep clusterer pts (coverPullbacks (pts.map filter) cfg)))) := by
  unfold transform
  rw [if_neg (by simp [hcfg]), if_neg (by simp [hval])]

theorem find?_eq_of_nodup_keys {l : List (α × β)} [DecidableEq α] {k : α} {v : β}
    (hnodup : (l.map Prod.fst).Nodup) (hmem : (k, v) ∈ l) :
    l.find? (fun r => decide (r.1 = k)) = some (k, v) := by
  induction l with
  | nil => simp at hmem
  | cons a rest ih =>
    rcases List.mem_cons.1 hmem with heq | hmem2
    · rw [← heq]
      apply List.find?_cons_of_pos
      simp
    · have hknotk : k ∈ rest.map Prod.fst := List.mem_map.2 ⟨(k, v), hmem2, rfl⟩
      have hkey : ¬(a.1 = k) := by
        intro h
        rw [List.map_cons, List.nodup_cons] at hnodup
        exact hnodup.1 (h ▸ hknotk)
      have hstep : List.find? (fun r => decide (r.1 = k)) (a :: rest)
          = List.find? (fun r => decide (r.1 = k)) rest :=
        List.find?_cons_of_neg rest (by simp [hkey])
      rw [hstep]
      exact ih (by rw [List.map_cons, List.nodup_cons] at hnodup; exact hnodup.2) hmem2

theorem collectOrdered_eq {R : List (List ℕ × List (ℕ × Option ℕ))}
    {g : List ℕ × List ℕ → List (ℕ × Option ℕ)} :
    ∀ (pbs : List (List ℕ × List ℕ)),
    (∀ pb ∈ pbs, R.find? (fun r => decide (r.1 = pb.1)) = some (pb.1, g pb)) →
    collectOrdered (pbs.map Prod.fst) R = pbs.map (fun pb => (pb.1, g pb)) := by
  intro pbs
  induction pbs with
  | nil => intro _; rfl
  | cons pb rest ih =>
    intro h
    simp only [collectOrdered, List.map_cons, List.filterMap_cons]
    rw [h pb (by simp)]
    rw [← ih (fun pb2 hpb2 => h pb2 (by simp [hpb2]))]
    rfl

theorem clusterStep_keys (clusterer : List P → List (Option ℕ)) (pts : List P)
    (pbs : List (List ℕ × List ℕ)) :
    (clusterStep clusterer pts pbs).map Prod.fst = pbs.map Prod.fst := by
  simp [clusterStep, List.map_map]

theorem collectOrdered_clusterStep {clusterer : List P → List (Option ℕ)} {pts : List P}
    {pbs sched : List (List ℕ × List ℕ)}
    (hperm : sched.Perm pbs) (hnodup : (pbs.map Prod.fst).Nodup) :
    collectOrdered (pbs.map Prod.fst) (clusterStep clusterer pts sched)
      = clusterStep clusterer pts pbs := by
  have hR : (clusterStep clusterer pts sched).Perm (clusterStep clusterer pts pbs) :=
    hperm.map _
  have hRkeys : ((clusterStep clusterer pts sched).map Prod.fst).Nodup := by
    have : ((clusterStep clusterer pts sched).map Prod.fst).Perm
        ((clusterStep clusterer pts pbs).map Prod.fst) := hR.map _
    rw [clusterStep_keys clusterer pts pbs] at this
    exact this.nodup_iff.2 hnodup
  have hfind : ∀ pb ∈ pbs, (clusterStep clusterer pts sched).find?
      (fun r => decide (r.1 = pb.1)) = some (pb.1, pullbackLabeling clusterer pts pb.2) := by
    intro pb hpb
    apply find?_eq_of_nodup_keys hRkeys
    apply hR.mem_iff.2
    exact List.mem_map.2 ⟨pb, hpb, rfl⟩
  rw [collectOrdered_eq pbs hfind]
  rfl

theorem transformSched_eq {cfg : MapperConfig} {filter : P → List ℚ}
    {clusterer : List P → List (Option ℕ)} {pts : List P}
    {sched : List (List ℕ × List ℕ)}
    (hperm : sched.Perm (coverPullbacks (pts.map filter) cfg)) :
    transformSched cfg filter clusterer pts sched = transform cfg filter clusterer pts := by
  by_cases h1 : validConfig cfg = false
  · simp [transformSched, transform, h1]
  · by_cases h2 : validFiltered (pts.map filter) = false
    · simp [transformSched, transform, h1, h2]
    · simp only [transformSched, transform, if_neg h1, if_neg h2]
      rw [collectOrdered_clusterStep hperm coverPullbacks_keys_nodup]

theorem transform_ok_inv {cfg : MapperConfig} {filter : P → List ℚ}
    {clusterer : List P → List (Option ℕ)} {pts : List P} {g : MapperGraph}
    (hok : transform cfg filter clusterer pts = .ok g) :
    validConfig cfg = true ∧ validFiltered (pts.map filter) = true ∧
      g = assemble (buildNodes (clusterStep clusterer pts
        (coverPullbacks (pts.map filter) cfg))) := by
  unfold transform at hok
  by_cases h1 : validConfig cfg = false
  · rw [if_pos h1] at hok
    cases hok
  · rw [if_neg h1] at hok
    by_cases h2 : validFiltered (pts.map filter) = false
    · rw [if_pos h2] at hok
      cases hok
    · rw [if_neg h2] at hok
      injection hok with hok
      refine ⟨?_, ?_, hok.symm⟩
      · cases hcv : validConfig cfg
        · exact absurd hcv h1
        · rfl
      · cases hcv : validFiltered (pts.map filter)
        · exact absurd hcv h2
        · rfl

theorem le_listMin : ∀ {vs : List ℚ} {c : ℚ}, (∀ v ∈ vs, c ≤ v) → vs ≠ [] → c ≤ listMin vs := by
  intro vs
  induction vs with
  | nil => intro c _ hne; exact absurd rfl hne
  | cons a rest ih =>
    intro c h _
    cases rest with
    | nil => simpa [listMin] using h a (by simp)
    | cons b r2 =>
      simp only [listMin, le_min_iff]
      exact ⟨h a (by simp), ih (fun v hv => h v (by simp [hv])) (by simp)⟩

theorem listMax_le : ∀ {vs : List ℚ} {c : ℚ}, (∀ v ∈ vs, v ≤ c) → vs ≠ [] → listMax vs ≤ c := by
  intro vs
  induction vs with
  | nil => intro c _ hne; exact absurd rfl hne
  | cons a rest ih =>
    intro c h _
    cases rest with
    | nil => simpa [listMax] using h a (by simp)
    | cons b r2 =>
      simp only [listMax, max_le_iff]
      exact ⟨h a (by simp), ih (fun v hv => h v (by simp [hv])) (by simp)⟩

theorem listMin_eq_listMax_of_const {vs : List ℚ}
    (h : ∀ a ∈ vs, ∀ b ∈ vs, a = b) : listMin vs = listMax vs := by
  cases vs with
  | nil => rfl
  | cons a rest =>
    have hmin : listMin (a :: rest) ≤ a := listMin_le (by simp)
    have hmax : a ≤ listMax (a :: rest) := le_listMax (by simp)
    have h1 : a ≤ listMin (a :: rest) :=
      le_listMin (fun v hv => (h a (by simp) v hv).le) (by simp)
    have h2 : listMax (a :: rest) ≤ a :=
      listMax_le (fun v hv => (h v hv a (by simp)).le) (by simp)
    linarith

theorem coverCells_of_const {fvals : List (List ℚ)} {cfg : MapperConfig}
    (h : ∀ r1 ∈ fvals, ∀ r2 ∈ fvals, r1 = r2) :
    ∃ cell, coverCells fvals cfg = [cell] := by
  apply cellProd_of_singletons
  intro bs hbs
  simp only [coverBins, List.mem_map] at hbs
  obtain ⟨k, _, hk⟩ := hbs
  have hconst : listMin (columnVals fvals k) = listMax (columnVals fvals k) := by
    apply listMin_eq_listMax_of_const
    intro a ha b hb
    obtain ⟨r1, hr1, hra⟩ := List.mem_map.1 ha
    obtain ⟨r2, hr2, hrb⟩ := List.mem_map.1 hb
    rw [← hra, ← hrb, h r1 hr1 r2 hr2]
  rw [← hk]
  unfold axisBins
  rw [if_pos hconst]
  exact ⟨_, rfl⟩

/-! Claim theorems. -/

/-- C1: every graph produced by the Mapper pipeline's `transform` has an edge
between node positions i and j (i < j) exactly when the two nodes' element
sets intersect; edges are normalized pairs with i < j (so they represent
unordered pairs and no node has an edge to itself) and the edge list holds
no duplicates (no parallel edges). -/
theorem edge_iff_intersection {P : Type} (cfg : MapperConfig) (filter : P → List ℚ)
    (clusterer : List P → List (Option ℕ)) (pts : List P) (g : MapperGraph)
    (hok : transform cfg filter clusterer pts = .ok g) :
    (∀ i j, i < j → j < g.nodes.length →
      ((i, j) ∈ g.edges ↔ ∃ p, p ∈ elemsAt g.nodes i ∧ p ∈ elemsAt g.nodes j)) ∧
    (∀ e ∈ g.edges, e.1 < e.2 ∧ e.2 < g.nodes.length) ∧
    g.edges.Nodup := by
  obtain ⟨_, _, hg⟩ := transform_ok_inv hok
  subst hg
  refine ⟨?_, ?_, optEdges_nodup _⟩
  · intro i j hij hj
    constructor
    · intro hmem
      exact intersects_iff.1 (mem_naiveEdges.1 (mem_optEdges.1 hmem)).2.2
    · intro hp
      exact mem_optEdges.2 (mem_naiveEdges.2 ⟨hij, hj, intersects_iff.2 hp⟩)
  · intro e he
    obtain ⟨i, j⟩ := e
    obtain ⟨h1, h2, _⟩ := mem_naiveEdges.1 (mem_optEdges.1 he)
    exact ⟨h1, h2⟩

/-- Witness for C1: the chain graph of a concrete three-interval run. -/
theorem edge_iff_intersection_witness :
    (∀ i j, i < j → j < exGraphChain.nodes.length →
      ((i, j) ∈ exGraphChain.edges ↔
        ∃ p, p ∈ elemsAt exGraphChain.nodes i ∧ p ∈ elemsAt exGraphChain.nodes j)) ∧
    (∀ e ∈ exGraphChain.edges, e.1 < e.2 ∧ e.2 < exGraphChain.nodes.length) ∧
    exGraphChain.edges.Nodup :=
  edge_iff_intersection ⟨3, 9/10⟩ exFilter exClusterer [0, 1, 2, 3] exGraphChain (by with_unfolding_all rfl)

/-- C4: the optimized edge detection — inverted index from point index to the
nodes containing it, pair enumeration per point, de-duplication — produces
exactly the edge set of the naive all-pairs intersection test. -/
theorem optimized_edges_equiv_naive (nodes : List Node) :
    (optEdges nodes).Perm (naiveEdges nodes) ∧
      ∀ e, (e ∈ optEdges nodes ↔ e ∈ naiveEdges nodes) := by
  have hm : ∀ e, e ∈ optEdges nodes ↔ e ∈ naiveEdges nodes := fun _ => mem_optEdges
  exact ⟨(List.perm_ext_iff_of_nodup (optEdges_nodup nodes) (naiveEdges_nodup nodes)).2 hm, hm⟩

/-- C5: whenever a point belongs to the element sets of two distinct nodes of
a graph produced by `transform`, the edge between those nodes is present;
hence a point shared by k ≥ 3 nodes yields all k(k-1)/2 pairwise edges. -/
theorem multiway_overlap_edges {P : Type} (cfg : MapperConfig) (filter : P → List ℚ)
    (clusterer : List P → List (Option ℕ)) (pts : List P) (g : MapperGraph)
    (hok : transform cfg filter clusterer pts = .ok g)
    (p i j : ℕ) (hij : i < j) (hj : j < g.nodes.length)
    (hpi : p ∈ elemsAt g.nodes i) (hpj : p ∈ elemsAt g.nodes j) :
    (i, j) ∈ g.edges := by
  obtain ⟨_, _, hg⟩ := transform_ok_inv hok
  subst hg
  exact mem_optEdges.2 (mem_naiveEdges.2 ⟨hij, hj, intersects_iff.2 ⟨p, hpi, hpj⟩⟩)

/-- Witness for C5: in a concrete two-axis run, point 1 lies in four nodes and
the triangle of edges among nodes 0, 1, 2 is fully present. -/
theorem multiway_overlap_edges_witness :
    (0, 1) ∈ exGraphTri.edges ∧ (0, 2) ∈ exGraphTri.edges ∧ (1, 2) ∈ exGraphTri.edges :=
  ⟨multiway_overlap_edges ⟨2, 1/2⟩ exFilter2 exClusterer [0, 3/2, 3] exGraphTri (by with_unfolding_all rfl) 1 0 1
      (by decide) (by decide) (by decide) (by decide),
   multiway_overlap_edges ⟨2, 1/2⟩ exFilter2 exClusterer [0, 3/2, 3] exGraphTri (by with_unfolding_all rfl) 1 0 2
      (by decide) (by decide) (by decide) (by decide),
   multiway_overlap_edges ⟨2, 1/2⟩ exFilter2 exClusterer [0, 3/2, 3] exGraphTri (by with_unfolding_all rfl) 1 1 2
      (by decide) (by decide) (by decide) (by decide)⟩

/-- C2: for a fixed input and configuration the pipeline is deterministic and
schedule-independent: clustering the pullback sets in any two permuted orders
produces the same graph, equal to the canonical `transform` output. -/
theorem transform_deterministic {P : Type} (cfg : MapperConfig) (filter : P → List ℚ)
    (clusterer : List P → List (Option ℕ)) (pts : List P)
    (s1 s2 : List (List ℕ × List ℕ))
    (h1 : s1.Perm (coverPullbacks (pts.map filter) cfg))
    (h2 : s2.Perm (coverPullbacks (pts.map filter) cfg)) :
    transformSched cfg filter clusterer pts s1 = transformSched cfg filter clusterer pts s2 ∧
    transformSched cfg filter clusterer pts s1 = transform cfg filter clusterer pts := by
  have e1 : transformSched cfg filter clusterer pts s1 = transform cfg filter clusterer pts :=
    transformSched_eq h1
  have e2 : transformSched cfg filter clusterer pts s2 = transform cfg filter clusterer pts :=
    transformSched_eq h2
  exact ⟨e1.trans e2.symm, e1⟩

/-- Witness for C2: processing the three pullback sets of a concrete run in
reversed order yields the same graph as the canonical order. -/
theorem transform_deterministic_witness :
    (transformSched ⟨3, 9/10⟩ exFilter exClusterer [0, 1, 2, 3]
        [([2], [2, 3]), ([1], [1, 2]), ([0], [0, 1])]
      = transformSched ⟨3, 9/10⟩ exFilter exClusterer [0, 1, 2, 3]
        [([0], [0, 1]), ([1], [1, 2]), ([2], [2, 3])]) ∧
    transformSched ⟨3, 9/10⟩ exFilter exClusterer [0, 1, 2, 3]
        [([2], [2, 3]), ([1], [1, 2]), ([0], [0, 1])]
      = transform ⟨3, 9/10⟩ exFilter exClusterer [0, 1, 2, 3] :=
  transform_deterministic ⟨3, 9/10⟩ exFilter exClusterer [0, 1, 2, 3]
    [([2], [2, 3]), ([1], [1, 2]), ([0], [0, 1])]
    [([0], [0, 1]), ([1], [1, 2]), ([2], [2, 3])]
    (of_decide_eq_true (by with_unfolding_all rfl))
    (of_decide_eq_true (by with_unfolding_all rfl))

/-- C3: for every valid configuration and valid filter output, every point
index is assigned to at least one pullback set; with n_intervals = 1 and at
least one point, the cover has exactly one pullback set and it contains
every point index. -/
theorem cover_surjectivity (cfg : MapperConfig) (fvals : List (List ℚ))
    (hcfg : validConfig cfg = true) (hval : validFiltered fvals = true) :
    (∀ i, i < fvals.length → ∃ pb ∈ coverPullbacks fvals cfg, i ∈ pb.2) ∧
    (cfg.nIntervals = 1 → fvals ≠ [] →
      ∃ pb, coverPullbacks fvals cfg = [pb] ∧ ∀ i, i < fvals.length → i ∈ pb.2) := by
  have hsurj : ∀ i, i < fvals.length → ∃ pb ∈ coverPullbacks fvals cfg, i ∈ pb.2 := by
    intro i hi
    exact cover_surj hcfg hval (List.getElem?_eq_getElem hi)
  refine ⟨hsurj, ?_⟩
  intro h1 hne
  obtain ⟨cell, hcell⟩ := coverCells_one h1
  have hkey : ∀ pb ∈ coverPullbacks fvals cfg,
      pb = (cell.map Prod.fst, pullbackOf fvals cell) := by
    intro pb hpb
    obtain ⟨cell2, hcell2, _, rfl⟩ := mem_coverPullbacks.1 hpb
    rw [hcell] at hcell2
    rw [List.mem_singleton.1 hcell2]
  have hlen0 : 0 < fvals.length := List.length_pos.2 hne
  obtain ⟨pb0, hpb0, h0in⟩ := hsurj 0 hlen0
  have hpb0eq := hkey pb0 hpb0
  refine ⟨(cell.map Prod.fst, pullbackOf fvals cell), ?_, ?_⟩
  · have hnonempty : (pullbackOf fvals cell).isEmpty = false := by
      rw [List.isEmpty_eq_false]
      apply List.ne_nil_of_mem
      rw [hpb0eq] at h0in
      exact h0in
    have hne2 : pullbackOf fvals cell ≠ [] := List.isEmpty_eq_false.1 hnonempty
    unfold coverPullbacks
    rw [hcell]
    simp [List.filterMap_cons, hne2]
  · intro i hi
    obtain ⟨pb, hpb, hin⟩ := hsurj i hi
    rw [hkey pb hpb] at hin
    exact hin

/-- Witness for C3 at a two-point data set with a single interval. -/
theorem cover_surjectivity_witness :
    (∀ i, i < ([[0], [1]] : List (List ℚ)).length →
      ∃ pb ∈ coverPullbacks [[0], [1]] ⟨1, 0⟩, i ∈ pb.2) ∧
    ((1 : ℕ) = 1 → ([[0], [1]] : List (List ℚ)) ≠ [] →
      ∃ pb, coverPullbacks [[0], [1]] ⟨1, 0⟩ = [pb] ∧
        ∀ i, i < ([[0], [1]] : List (List ℚ)).length → i ∈ pb.2) :=
  cover_surjectivity ⟨1, 0⟩ [[0], [1]]
    (by with_unfolding_all rfl) (by with_unfolding_all rfl)

/-- C6: an invalid parameter combination (overlap fraction ≥ 1, zero intervals,
or a ragged/empty filter row) makes `transform` return a configuration error,
and the output does not depend on the clusterer at all — the error is raised
before any clustering work, with no partial result. -/
theorem config_error_fail_fast {P : Type} (cfg : MapperConfig) (filter : P → List ℚ)
    (clusterer : List P → List (Option ℕ)) (pts : List P)
    (hbad : 1 ≤ cfg.overlapFrac ∨ cfg.nIntervals = 0 ∨
      ∃ row ∈ pts.map filter, ¬(row.length = dimOf (pts.map filter) ∧ 0 < row.length)) :
    (∃ e, transform cfg filter clusterer pts = .error e) ∧
    ∀ c2 : List P → List (Option ℕ),
      transform cfg filter clusterer pts = transform cfg filter c2 pts := by
  have hinv : validConfig cfg = false ∨ validFiltered (pts.map filter) = false := by
    rcases hbad with hb | hb | hb
    · left
      cases hcv : validConfig cfg
      · rfl
      · obtain ⟨_, _, hlt⟩ := validConfig_iff.1 hcv
        linarith
    · left
      cases hcv : validConfig cfg
      · rfl
      · obtain ⟨hge, _, _⟩ := validConfig_iff.1 hcv
        omega
    · right
      obtain ⟨row, hrow, hbadrow⟩ := hb
      cases hcv : validFiltered (pts.map filter)
      · rfl
      · exact absurd (validFiltered_row hcv hrow) hbadrow
  by_cases h1 : validConfig cfg = false
  · constructor
    · exact ⟨.invalidParams, by unfold transform; rw [if_pos h1]⟩
    · intro c2
      unfold transform
      simp only [if_pos h1]
  · have h2 : validFiltered (pts.map filter) = false := by
      rcases hinv with h | h
      · exact absurd h h1
      · exact h
    constructor
    · exact ⟨.invalidFilterOutput, by unfold transform; rw [if_neg h1, if_pos h2]⟩
    · intro c2
      unfold transform
      simp only [if_neg h1, if_pos h2]

/-- Witness for C6: a configuration with zero intervals errors out for any
clusterer. -/
theorem config_error_fail_fast_witness :
    (∃ e, transform ⟨0, 0⟩ exFilter exClusterer [0] = .error e) ∧
    ∀ c2 : List ℚ → List (Option ℕ),
      transform ⟨0, 0⟩ exFilter exClusterer [0] = transform ⟨0, 0⟩ exFilter c2 [0] :=
  config_error_fail_fast ⟨0, 0⟩ exFilter exClusterer [0] (Or.inr (Or.inl rfl))

/-- C7: degenerate inputs do not make `transform` fail: with a valid
configuration and valid filter output the pipeline always returns a graph
(whatever the clusterer does); zero points give the empty graph;
all-identical filter rows degenerate the cover to a single cell without
error; and every pullback set kept by the cover is non-empty — empty
pullback sets are omitted and contribute no nodes and no edges. -/
theorem degenerate_inputs_ok {P : Type} (cfg : MapperConfig) (filter : P → List ℚ)
    (clusterer : List P → List (Option ℕ)) (pts : List P)
    (hcfg : validConfig cfg = true) (hval : validFiltered (pts.map filter) = true) :
    (∃ g, transform cfg filter clusterer pts = .ok g) ∧
    (pts = [] → transform cfg filter clusterer pts = .ok ⟨[], []⟩) ∧
    ((∀ r1 ∈ pts.map filter, ∀ r2 ∈ pts.map filter, r1 = r2) →
      ∃ cell, coverCells (pts.map filter) cfg = [cell]) ∧
    (∀ pb ∈ coverPullbacks (pts.map filter) cfg, pb.2 ≠ []) := by
  refine ⟨⟨_, transform_ok hcfg hval⟩, ?_, coverCells_of_const, ?_⟩
  · intro hpts
    subst hpts
    rw [transform_ok hcfg hval]
    rfl
  · intro pb hpb
    obtain ⟨cell, _, hne, rfl⟩ := mem_coverPullbacks.1 hpb
    exact hne

/-- Witness for C7 at a two-point data set with identical filter values. -/
theorem degenerate_inputs_ok_witness :
    (∃ g, transform ⟨2, 1/2⟩ exFilter exClusterer [5, 5] = .ok g) ∧
    (([5, 5] : List ℚ) = [] → transform ⟨2, 1/2⟩ exFilter exClusterer [5, 5] = .ok ⟨[], []⟩) ∧
    ((∀ r1 ∈ List.map exFilter [5, 5], ∀ r2 ∈ List.map exFilter [5, 5], r1 = r2) →
      ∃ cell, coverCells (List.map exFilter [5, 5]) ⟨2, 1/2⟩ = [cell]) ∧
    (∀ pb ∈ coverPullbacks (List.map exFilter [5, 5]) ⟨2, 1/2⟩, pb.2 ≠ []) :=
  degenerate_inputs_ok ⟨2, 1/2⟩ exFilter exClusterer [5, 5]
    (by with_unfolding_all rfl) (by with_unfolding_all rfl)

/-- C8: noise-labeled points are excluded from every partial cluster: every
element of every node of a `transform` graph carries the node's (non-noise)
cluster label in that node's pullback set, so no node consists of
noise-labeled points; a point noise-labeled in a pullback set belongs to no
node of that pullback set; and every edge is witnessed by a shared point
that is a (non-noise) element of both endpoint nodes. -/
theorem noise_exclusion {P : Type} (cfg : MapperConfig) (filter : P → List ℚ)
    (clusterer : List P → List (Option ℕ)) (pts : List P) (g : MapperGraph)
    (hok : transform cfg filter clusterer pts = .ok g) :
    (∀ nd ∈ g.nodes, nd.elements ≠ [] ∧
      ∃ pb ∈ coverPullbacks (pts.map filter) cfg, pb.1 = nd.pullbackId ∧
        ∀ p ∈ nd.elements, (p, some nd.clusterLabel) ∈ pullbackLabeling clusterer pts pb.2) ∧
    (∀ pb ∈ coverPullbacks (pts.map filter) cfg, ∀ p : ℕ,
      (p, none) ∈ pullbackLabeling clusterer pts pb.2 →
      ∀ nd ∈ g.nodes, nd.pullbackId = pb.1 → p ∉ nd.elements) ∧
    (∀ e ∈ g.edges, ∃ p nd1 nd2, g.nodes[e.1]? = some nd1 ∧ g.nodes[e.2]? = some nd2 ∧
      p ∈ nd1.elements ∧ p ∈ nd2.elements) := by
  obtain ⟨hcfg, hval, hg⟩ := transform_ok_inv hok
  subst hg
  refine ⟨?_, ?_, ?_⟩
  · intro nd hnd
    obtain ⟨r, hr, hndr⟩ := mem_buildNodes.1 hnd
    obtain ⟨pb, hpb, hreq⟩ := List.mem_map.1 hr
    subst hreq
    have h1 := nodesOfPullback_elements hndr
    have hid : nd.pullbackId = pb.1 := (mem_nodesOfPullback.1 hndr).1
    exact ⟨h1.1, pb, hpb, hid.symm, h1.2⟩
  · intro pb hpb p hnoise nd hnd hid
    obtain ⟨r, hr, hndr⟩ := mem_buildNodes.1 hnd
    obtain ⟨pb2, hpb2, hreq⟩ := List.mem_map.1 hr
    subst hreq
    have hid2 : nd.pullbackId = pb2.1 := (mem_nodesOfPullback.1 hndr).1
    have hpbeq : pb2 = pb :=
      List.inj_on_of_nodup_map coverPullbacks_keys_nodup hpb2 hpb (by rw [← hid2, hid])
    subst hpbeq
    exact noise_not_in_node
      (pullbackLabeling_keys_nodup (pullback_indices_nodup hpb2)) hnoise hndr
  · intro e he
    obtain ⟨i, j⟩ := e
    obtain ⟨hij, hjlt, hint⟩ := mem_naiveEdges.1 (mem_optEdges.1 he)
    obtain ⟨p, hpi, hpj⟩ := intersects_iff.1 hint
    have hilt : i < _ := lt_trans hij hjlt
    refine ⟨p, _, _, List.getElem?_eq_getElem hilt, List.getElem?_eq_getElem hjlt, ?_, ?_⟩
    · simpa [elemsAt, List.get?_eq_getElem?, List.getElem?_eq_getElem hilt] using hpi
    · simpa [elemsAt, List.get?_eq_getElem?, List.getElem?_eq_getElem hjlt] using hpj

/-- Witness for C8: a concrete run where the clusterer labels point 0 (value
below 1) as noise; point 0 appears in no node of the resulting graph. -/
theorem noise_exclusion_witness :
    (∀ nd ∈ exGraphNoise.nodes, nd.elements ≠ [] ∧
      ∃ pb ∈ coverPullbacks (List.map exFilter [0, 1, 2, 3]) ⟨3, 9/10⟩, pb.1 = nd.pullbackId ∧
        ∀ p ∈ nd.elements, (p, some nd.clusterLabel) ∈ pullbackLabeling exNoiseCl [0, 1, 2, 3] pb.2) ∧
    (∀ pb ∈ coverPullbacks (List.map exFilter [0, 1, 2, 3]) ⟨3, 9/10⟩, ∀ p : ℕ,
      (p, none) ∈ pullbackLabeling exNoiseCl [0, 1, 2, 3] pb.2 →
      ∀ nd ∈ exGraphNoise.nodes, nd.pullbackId = pb.1 → p ∉ nd.elements) ∧
    (∀ e ∈ exGraphNoise.edges, ∃ p nd1 nd2, exGraphNoise.nodes[e.1]? = some nd1 ∧
      exGraphNoise.nodes[e.2]? = some nd2 ∧ p ∈ nd1.elements ∧ p ∈ nd2.elements) :=
  noise_exclusion ⟨3, 9/10⟩ exFilter exNoiseCl [0, 1, 2, 3] exGraphNoise
    (by with_unfolding_all rfl)

/-- C9: with a zero-overlap cover and an exhaustive clusterer (full-length
label output, no noise), the union of the node element sets of the
`transform` graph is exactly the set of original point indices 0..N-1. -/
theorem zero_overlap_partition {P : Type} (cfg : MapperConfig) (filter : P → List ℚ)
    (clusterer : List P → List (Option ℕ)) (pts : List P) (g : MapperGraph)
    (hok : transform cfg filter clusterer pts = .ok g)
    (hov : cfg.overlapFrac = 0)
    (hlen : ∀ ps : List P, (clusterer ps).length = ps.length)
    (hsome : ∀ ps : List P, ∀ o ∈ clusterer ps, o.isSome = true) :
    ∀ p : ℕ, p < pts.length ↔ ∃ nd ∈ g.nodes, p ∈ nd.elements := by
  obtain ⟨hcfg, hval, hg⟩ := transform_ok_inv hok
  subst hg
  intro p
  constructor
  · intro hp
    have hplen : p < (pts.map filter).length := by simpa using hp
    obtain ⟨pb, hpb, hpin⟩ := cover_surj hcfg hval (List.getElem?_eq_getElem hplen)
    have hidx : ∀ i ∈ pb.2, i < pts.length := fun i hi => by
      simpa using pullback_indices_lt hpb hi
    obtain ⟨l, hl⟩ := pullbackLabeling_total hidx (hlen _) (hsome _) p hpin
    obtain ⟨nd, hnd, _, hpel⟩ := @nodesOfPullback_of_label pb.1 _ p l hl
    refine ⟨nd, ?_, hpel⟩
    apply mem_buildNodes.2
    exact ⟨(pb.1, pullbackLabeling clusterer pts pb.2), List.mem_map.2 ⟨pb, hpb, rfl⟩, hnd⟩
  · rintro ⟨nd, hnd, hp⟩
    obtain ⟨r, hr, hndr⟩ := mem_buildNodes.1 hnd
    obtain ⟨pb, hpb, hreq⟩ := List.mem_map.1 hr
    subst hreq
    have hlab := (nodesOfPullback_elements hndr).2 p hp
    have hpin : p ∈ pb.2 := mem_pullbackLabeling hlab
    simpa using pullback_indices_lt hpb hpin

/-- Witness for C9: a zero-overlap two-interval run whose two nodes partition
the four point indices. -/
theorem zero_overlap_partition_witness :
    (2 : ℕ) < ([0, 1, 2, 3] : List ℚ).length ↔ ∃ nd ∈ exGraphPart.nodes, 2 ∈ nd.elements :=
  zero_overlap_partition ⟨2, 0⟩ exFilter exClusterer [0, 1, 2, 3] exGraphPart
    (by with_unfolding_all rfl) rfl
    (fun ps => by simp [exClusterer])
    (fun ps o ho => by
      simp only [exClusterer, List.mem_map] at ho
      obtain ⟨a, _, hoa⟩ := ho
      rw [← hoa]
      rfl)
    2

/-- C10: every node of every graph returned by `transform` on an N-point
input owns a non-empty element list whose members are all valid indices into
the original point list (smaller than N). -/
theorem node_elements_valid {P : Type} (cfg : MapperConfig) (filter : P → List ℚ)
    (clusterer : List P → List (Option ℕ)) (pts : List P) (g : MapperGraph)
    (hok : transform cfg filter clusterer pts = .ok g) :
    ∀ nd ∈ g.nodes, nd.elements ≠ [] ∧ ∀ p ∈ nd.elements, p < pts.length := by
  obtain ⟨hcfg, hval, hg⟩ := transform_ok_inv hok
  subst hg
  intro nd hnd
  obtain ⟨r, hr, hndr⟩ := mem_buildNodes.1 hnd
  obtain ⟨pb, hpb, hreq⟩ := List.mem_map.1 hr
  subst hreq
  have h1 := nodesOfPullback_elements hndr
  refine ⟨h1.1, fun p hp => ?_⟩
  have hlab := h1.2 p hp
  have hpin : p ∈ pb.2 := mem_pullbackLabeling hlab
  simpa using pullback_indices_lt hpb hpin

/-- Witness for C10: a concrete three-node graph whose node elements are all
valid indices into the four input points. -/
theorem node_elements_valid_witness :
    (⟨[0], 0, [0, 1]⟩ : Node).elements ≠ [] ∧
      ∀ p ∈ (⟨[0], 0, [0, 1]⟩ : Node).elements, p < ([0, 1, 2, 3] : List ℚ).length :=
  node_elements_valid ⟨3, 9/10⟩ exFilter exClusterer [0, 1, 2, 3] exGraphChain
    (by with_unfolding_all rfl) ⟨[0], 0, [0, 1]⟩ (by decide)

end Mapper
